import Mathlib

/-!
Shallow embedding of the hybrid memory store in `src/store.ts`
(class `MemoryStore`): a SQLite metadata table of memory rows plus a
LanceDB vector index, coordinated by create / get / update / delete /
search / list / findDuplicates / touchMany / count / getByCategory.

Modelling conventions:
* strings are `List Char` (`Str`), so that everything evaluates in the kernel;
* timestamps (`Date.now()`) are `Nat` milliseconds, `decay_days` is `Int`
  (a SQLite INTEGER column), `confidence` / `importance` and vector
  components are `Rat`;
* the SQLite table is the list of rows in insertion (rowid) order; a
  `SELECT ... LIMIT 1` without ORDER BY returns the first row in that
  order, and `ORDER BY` is a stable sort of that order;
* SQLite `LIKE` is modelled with its `%` / `_` wildcards and
  ASCII case-insensitivity (`likeMatch`);
* the `tags` column stores `JSON.stringify` of the tag array; the model
  keeps the parsed list in the row and re-serializes it (`serializeTags`)
  exactly where the SQL touches the raw text (the tag LIKE filter);
* the embedding provider is an explicit function parameter
  `embed : Str → List Rat`; LanceDB's `_distance` for a vector search is
  the squared L2 distance, and nearest-neighbour results come back in
  ascending distance order (ties kept in table order);
* `randomUUID()` and `Date.now()` are injected as explicit `id` / `now`
  arguments of the operations;
* the one I/O failure the spec's partial-failure policy talks about —
  the metadata INSERT of `create` throwing after the vector write — is
  injected as a boolean `metaOk` argument of `create`; the source has no
  try/catch around it, so on failure the exception propagates and no
  compensation runs.
-/

namespace MemoryTools

abbrev Str := List Char

/-- ASCII lower-casing of a single character, as SQLite's `LIKE` applies it. -/
def asciiLower (c : Char) : Char :=
  if 'A' ≤ c ∧ c ≤ 'Z' then Char.ofNat (c.toNat + 32) else c

/-- SQLite `LIKE` comparison of one pattern character with one text character. -/
def likeCharEq (p c : Char) : Bool :=
  asciiLower p = asciiLower c

/-- SQLite `LIKE pattern` matching: `%` matches any sequence (any suffix of
the remaining text, `tails` including the empty one), `_` any single
character, other characters match ASCII-case-insensitively. Structural
recursion on the pattern. -/
def likeMatch : Str → Str → Bool
  | [], t => t.isEmpty
  | '%' :: ps, t => t.tails.any (fun s => likeMatch ps s)
  | '_' :: ps, t =>
    (match t with
     | [] => false
     | _ :: ts => likeMatch ps ts)
  | p :: ps, t =>
    (match t with
     | [] => false
     | c :: ts => likeCharEq p c && likeMatch ps ts)

/-- JSON string escaping as `JSON.stringify` performs it on tag strings. -/
def jsonEscapeChar (c : Char) : Str :=
  if c = '"' then ['\\', '"']
  else if c = '\\' then ['\\', '\\']
  else if c = '\n' then ['\\', 'n']
  else if c = '\t' then ['\\', 't']
  else if c = '\r' then ['\\', 'r']
  else if c = Char.ofNat 8 then ['\\', 'b']
  else if c = Char.ofNat 12 then ['\\', 'f']
  else if c.toNat < 32 then
    ['\\', 'u', '0', '0',
     (Nat.digitChar (c.toNat / 16)), (Nat.digitChar (c.toNat % 16))]
  else [c]

/-- `JSON.stringify` of one tag string (quotes plus escaped body). -/
def jsonString (s : Str) : Str :=
  '"' :: (s.flatMap jsonEscapeChar) ++ ['"']

/-- `JSON.stringify` of the tag array, as stored in the `tags` TEXT column. -/
def serializeTags (tags : List Str) : Str :=
  '[' :: (List.intercalate [','] (tags.map jsonString)) ++ [']']

/-!
Rational arithmetic through the reducible primitives `mkRat` / `Rat.divInt`,
so that concrete instances evaluate inside the kernel (the standard `Rat`
operations are `@[irreducible]`). `rAdd_eq` … `rSum_eq` below prove each
wrapper equal to the standard operation.
-/

/-- `a + b` on `Rat` (kernel-reducible form). -/
def rAdd (a b : Rat) : Rat := mkRat (a.num * b.den + b.num * a.den) (a.den * b.den)

/-- `a - b` on `Rat` (kernel-reducible form). -/
def rSub (a b : Rat) : Rat := mkRat (a.num * b.den - b.num * a.den) (a.den * b.den)

/-- `a * b` on `Rat` (kernel-reducible form). -/
def rMul (a b : Rat) : Rat := mkRat (a.num * b.num) (a.den * b.den)

/-- `a / b` on `Rat` (kernel-reducible form). -/
def rDiv (a b : Rat) : Rat := Rat.divInt (a.num * b.den) (a.den * b.num)

/-- Sum of a list of rationals (kernel-reducible form). -/
def rSum (l : List Rat) : Rat := l.foldr rAdd 0

/-- One metadata row of the `memories` table, equivalently the materialized
`Memory` record (`rowToMemory` decodes column-by-column without change). -/
structure Memory where
  id : Str
  content : Str
  category : Str
  confidence : Rat
  importance : Rat
  createdAt : Nat
  updatedAt : Nat
  lastAccessedAt : Option Nat
  decayDays : Option Int
  sourceChannel : Option Str
  sourceMessageId : Option Str
  tags : List Str
  supersedes : Option Str
  deletedAt : Option Nat
  deleteReason : Option Str
deriving Repr, DecidableEq

/-- One entry of the LanceDB vector table `memory_vectors`. -/
structure VecEntry where
  id : Str
  vector : List Rat
  text : Str
deriving Repr, DecidableEq

/-- The two persistent stores a `MemoryStore` instance coordinates, each in
insertion order. -/
structure StoreState where
  vecs : List VecEntry
  rows : List Memory
deriving Repr, DecidableEq

/-- `rowToMemory`: the row decoder; on this model the column decoding is the
identity (fields are already typed). -/
def rowToMemory (r : Memory) : Memory := r

/-- `MemoryStore.get`: an 8-character input is resolved by
`id LIKE 'input%' LIMIT 1` over all rows (deleted ones included); any other
length is an exact primary-key lookup. -/
def get (st : StoreState) (id : Str) : Option Memory :=
  if id.length = 8 then
    ((st.rows.filter (fun r => likeMatch (id ++ ['%']) r.id)).head?).map rowToMemory
  else
    ((st.rows.filter (fun r => r.id == id)).head?).map rowToMemory

inductive StoreError
  | storageFailure
deriving Repr, DecidableEq

structure CreateMemoryInput where
  content : Str
  category : Str
  confidence : Option Rat
  importance : Option Rat
  decayDays : Option Int
  tags : Option (List Str)
  sourceChannel : Option Str
  sourceMessageId : Option Str
deriving Repr, DecidableEq

/-- The metadata row `create`'s INSERT writes: the inputs, defaults
`confidence = 0.8` and `importance = 0.5` (`??` fallbacks), all three
timestamps set to `now`, no supersession, not deleted. -/
def createRow (input : CreateMemoryInput) (id : Str) (now : Nat) : Memory :=
  { id := id
    content := input.content
    category := input.category
    confidence := input.confidence.getD (mkRat 4 5)
    importance := input.importance.getD (mkRat 1 2)
    createdAt := now
    updatedAt := now
    lastAccessedAt := some now
    decayDays := input.decayDays
    sourceChannel := input.sourceChannel
    sourceMessageId := input.sourceMessageId
    tags := input.tags.getD []
    supersedes := none
    deletedAt := none
    deleteReason := none }

/-- `MemoryStore.create`. The fresh `randomUUID()` and `Date.now()` are the
`id` / `now` arguments. `metaOk` injects the one failure mode the
partial-failure policy concerns: the metadata INSERT throwing after the
vector write already succeeded. The source wraps nothing in try/catch, so in
that case the error propagates, the appended vector entry stays, and no row
is inserted. On success the result is `this.get(id)` (non-null asserted). -/
def create (embed : Str → List Rat) (st : StoreState) (input : CreateMemoryInput)
    (id : Str) (now : Nat) (metaOk : Bool) :
    Except StoreError (Option Memory) × StoreState :=
  let entry : VecEntry := { id := id, vector := embed input.content, text := input.content }
  let vecs' := st.vecs ++ [entry]
  if metaOk then
    let st' : StoreState := { vecs := vecs', rows := st.rows ++ [createRow input id now] }
    (Except.ok (get st' id), st')
  else
    (Except.error StoreError.storageFailure, { vecs := vecs', rows := st.rows })

structure UpdateMemoryInput where
  content : Option Str
  confidence : Option Rat
  importance : Option Rat
  decayDays : Option Int
  tags : Option (List Str)
deriving Repr, DecidableEq

/-- The row-level effect of `update`'s SQL
`UPDATE memories SET <staged> WHERE id = ?`: apply the staged columns (plus
`updated_at`) to a row whose id matches, leave any other row unchanged. -/
def applyUpdates (u : UpdateMemoryInput) (now : Nat) (id : Str) (r : Memory) :
    Memory :=
  if r.id == id then
    { r with
      updatedAt := now
      content := u.content.getD r.content
      confidence := u.confidence.getD r.confidence
      importance := u.importance.getD r.importance
      decayDays := if u.decayDays.isSome then u.decayDays else r.decayDays
      tags := u.tags.getD r.tags }
  else r

/-- `MemoryStore.update`: stages a column update per present field (plus
`updated_at` always), re-embeds and rewrites the vector entry in place when
`content` is present, runs one SQL UPDATE keyed on the raw id (no short-id
resolution, no liveness check), then returns `this.get(id)` (non-null
asserted, so `none` models the returned `null` for an unknown id). -/
def update (embed : Str → List Rat) (st : StoreState) (id : Str)
    (u : UpdateMemoryInput) (now : Nat) : Option Memory × StoreState :=
  let vecs' :=
    match u.content with
    | some c => st.vecs.map (fun e =>
        if e.id == id then { id := e.id, vector := embed c, text := c } else e)
    | none => st.vecs
  let st' : StoreState := { vecs := vecs', rows := st.rows.map (applyUpdates u now id) }
  (get st' id, st')

/-- `MemoryStore.delete`: an 8-character input is resolved against live rows
only (`id LIKE ? AND deleted_at IS NULL LIMIT 1`), falling back to the raw
input when no live row matches. The soft-delete UPDATE is unconditional
(`WHERE id = ?` with no `deleted_at IS NULL` guard), so it re-stamps
`deleted_at` / `delete_reason` even on an already-deleted row; the vector
entry is removed. -/
def delete (st : StoreState) (id : Str) (reason : Option Str) (now : Nat) :
    StoreState :=
  let fullId :=
    if id.length = 8 then
      match (st.rows.filter (fun r =>
          likeMatch (id ++ ['%']) r.id && r.deletedAt == none)).head? with
      | some r => r.id
      | none => id
    else id
  { vecs := st.vecs.filter (fun e => !(e.id == fullId))
    rows := st.rows.map (fun r =>
      if r.id == fullId then
        { r with deletedAt := some now, deleteReason := reason }
      else r) }

structure SearchOptions where
  query : Option Str
  category : Option Str
  minConfidence : Option Rat
  minImportance : Option Rat
  tags : Option (List Str)
  limit : Option Nat
  excludeDecayed : Option Bool
deriving Repr, DecidableEq

structure MemorySearchResult where
  memory : Memory
  score : Rat
deriving Repr, DecidableEq

/-- Stable insertion: place `a` before the first element `b` with `le a b`. -/
def insertBy (le : α → α → Bool) (a : α) : List α → List α
  | [] => [a]
  | b :: l => if le a b then a :: b :: l else b :: insertBy le a l

/-- Stable sort (insertion sort): models an engine ordering that keeps equal
keys in table order. -/
def stableSortBy (le : α → α → Bool) : List α → List α
  | [] => []
  | x :: xs => insertBy le x (stableSortBy le xs)

/-- Squared L2 distance, the `_distance` LanceDB reports for a vector query. -/
def sqDist (v w : List Rat) : Rat :=
  rSum (List.zipWith (fun a b => rMul (rSub a b) (rSub a b)) v w)

/-- The distance-to-similarity transform of `search` and `findDuplicates`:
`score = 1 / (1 + distance)`. -/
def distScore (d : Rat) : Rat := rDiv 1 (rAdd 1 d)

/-- `vectorSearch(q).limit(k)`: the `k` nearest entries by `_distance`,
ascending, ties kept in table order. -/
def vectorSearch (vecs : List VecEntry) (q : List Rat) (k : Nat) :
    List (VecEntry × Rat) :=
  (stableSortBy (fun a b => decide (a.2 ≤ b.2))
    (vecs.map (fun e => (e, sqDist q e.vector)))).take k

/-- The decay clause of `search`'s SQL:
`decay_days IS NULL OR created_at + decay_days * 86400000 > now`. -/
def decayFilter (r : Memory) (now : Nat) : Bool :=
  match r.decayDays with
  | none => true
  | some d => decide ((r.createdAt : Int) + d * 86400000 > (now : Int))

/-- The per-tag clause of `search`'s SQL: `tags LIKE '%"tag"%'` against the
serialized tag array. -/
def tagLikeFilter (t : Str) (tags : List Str) : Bool :=
  likeMatch ('%' :: '"' :: t ++ ['"', '%']) (serializeTags tags)

/-- The WHERE clause of `search`'s SQL: exclude soft-deleted rows always,
restrict to the candidate id set when the vector phase produced one
(`vectorIds.length > 0`), apply the category / minConfidence /
minImportance / per-tag clauses when given, and the decay clause unless
`excludeDecayed === false`. -/
def searchFilter (opts : SearchOptions) (vectorIds : List Str) (now : Nat)
    (r : Memory) : Bool :=
  r.deletedAt == none &&
  (vectorIds.isEmpty || vectorIds.contains r.id) &&
  (match opts.category with | some c => r.category == c | none => true) &&
  (match opts.minConfidence with
   | some m => decide (r.confidence ≥ m)
   | none => true) &&
  (match opts.minImportance with
   | some m => decide (r.importance ≥ m)
   | none => true) &&
  (match opts.tags with
   | some ts => ts.all (fun t => tagLikeFilter t r.tags)
   | none => true) &&
  (if opts.excludeDecayed != some false then decayFilter r now else true)

/-- `MemoryStore.search`. A present non-empty query (JS truthiness: `''` is
falsy) turns on the vector phase: over-fetch `2 × limit` nearest entries,
score each as `1 / (1 + distance)`, and restrict the SQL id set — but only
when at least one candidate came back. The SQL applies `searchFilter` and
`LIMIT limit`. Rows get their vector score, default `1.0`; when the vector
phase produced candidates, results are stably re-sorted by vector rank
(missing rank sorts as 999). -/
def search (embed : Str → List Rat) (st : StoreState) (opts : SearchOptions)
    (now : Nat) : List MemorySearchResult :=
  let lim := opts.limit.getD 10
  let q : Option Str :=
    match opts.query with
    | some s => if s.isEmpty then none else some s
    | none => none
  let cands : List (Str × Rat) :=
    match q with
    | some s =>
      (vectorSearch st.vecs (embed s) (lim * 2)).map
        (fun p => (p.1.id, distScore p.2))
    | none => []
  let vectorIds := cands.map Prod.fst
  let rows := (st.rows.filter (searchFilter opts vectorIds now)).take lim
  let results := rows.map (fun r =>
    MemorySearchResult.mk (rowToMemory r) ((cands.lookup r.id).getD 1))
  if vectorIds.isEmpty then results
  else
    stableSortBy (fun a b =>
      decide (((vectorIds.indexOf? a.memory.id).getD 999) ≤
              ((vectorIds.indexOf? b.memory.id).getD 999))) results

/-- Sortable columns of `list` covered by the model (the non-null numeric
columns; `sortBy` arrives camelCased and is snake-cased into the column
name). -/
inductive SortKey
  | createdAt | updatedAt | confidence | importance
deriving Repr, DecidableEq

def sortVal : SortKey → Memory → Rat
  | SortKey.createdAt, r => (r.createdAt : Rat)
  | SortKey.updatedAt, r => (r.updatedAt : Rat)
  | SortKey.confidence, r => r.confidence
  | SortKey.importance, r => r.importance

inductive SortOrder
  | asc | desc
deriving Repr, DecidableEq

structure ListOptions where
  category : Option Str
  sortBy : Option SortKey
  sortOrder : Option SortOrder
  limit : Option Nat
  offset : Option Nat
deriving Repr, DecidableEq

structure ListResult where
  total : Nat
  items : List Memory
deriving Repr, DecidableEq

/-- `MemoryStore.list`: count live rows matching the category filter, then
page the same filtered set `ORDER BY col asc|desc` (modelled as a stable
sort of table order; the ORDER BY clause itself has no secondary key)
with `LIMIT (limit ?? 20) OFFSET (offset ?? 0)`. -/
def list (st : StoreState) (opts : ListOptions) : ListResult :=
  let key := opts.sortBy.getD SortKey.createdAt
  let ord := opts.sortOrder.getD SortOrder.desc
  let base := st.rows.filter (fun r =>
    r.deletedAt == none &&
    (match opts.category with | some c => r.category == c | none => true))
  let cmp : Memory → Memory → Bool := fun a b =>
    match ord with
    | SortOrder.asc => decide (sortVal key a ≤ sortVal key b)
    | SortOrder.desc => decide (sortVal key b ≤ sortVal key a)
  let sorted := stableSortBy cmp base
  ListResult.mk base.length
    ((sorted.drop (opts.offset.getD 0)).take (opts.limit.getD 20))

/-- `MemoryStore.findDuplicates`: embed the content, take the single nearest
vector entry; empty result when there is none, when its score
`1 / (1 + distance)` is below the threshold, or when `this.get` finds no
metadata row or one whose `deletedAt` is truthy (a nonzero stamp). -/
def findDuplicates (embed : Str → List Rat) (st : StoreState) (content : Str)
    (threshold : Rat) : List MemorySearchResult :=
  match vectorSearch st.vecs (embed content) 1 with
  | [] => []
  | p :: _ =>
    let score := distScore p.2
    if score < threshold then []
    else
      match get st p.1.id with
      | none => []
      | some m =>
        if (m.deletedAt.getD 0) ≠ 0 then [] else [MemorySearchResult.mk m score]

/-- All vector entries have a metadata counterpart with the same id (the
cross-store invariant the spec's partial-failure policy protects). -/
def noOrphanVectors (st : StoreState) : Bool :=
  st.vecs.all (fun e => st.rows.any (fun r => r.id == e.id))

/-! Concrete fixtures for witnesses and counterexamples: a deterministic
embedding provider (vector = [length of the text]) and small stores. -/

/-- A concrete embedding provider: one-dimensional, text length. -/
def embLen : Str → List Rat := fun s => [(s.length : Rat)]

def emptyStore : StoreState := { vecs := [], rows := [] }

/-- A 9-character id (ids in the source are 36-character UUIDs; any length
other than 8 takes the exact-lookup path). -/
def idA : Str := ['a', 'b', 'c', 'd', 'e', 'f', 'g', 'h', '1']

/-- A second id sharing the first 8 characters with `idA`. -/
def idB : Str := ['a', 'b', 'c', 'd', 'e', 'f', 'g', 'h', '2']

/-- The shared 8-character short id of `idA` and `idB`. -/
def pre8 : Str := ['a', 'b', 'c', 'd', 'e', 'f', 'g', 'h']

def inputHi : CreateMemoryInput :=
  { content := ['h', 'i']
    category := ['f', 'a', 'c', 't']
    confidence := none
    importance := none
    decayDays := none
    tags := some [['x']]
    sourceChannel := none
    sourceMessageId := none }

/-- A one-row store: `inputHi` created at time 100 under `idA`. -/
def stA : StoreState := (create embLen emptyStore inputHi idA 100 true).2

/-- The row left by deleting `idA` twice (at 200 then 300 with reason u). -/
def stARow2 : Memory :=
  (delete (delete stA idA none 200) idA (some ['u']) 300).rows.head (by decide)

/-- A third id, distinct from `idA`/`idB` in its first 8 characters. -/
def idC : Str := ['z', 'b', 'c', 'd', 'e', 'f', 'g', 'h', '3']

/-- Three live rows: `inputHi` created under `idA`, `idB`, `idC` at times
100, 200, 300. -/
def st3 : StoreState :=
  (create embLen
    (create embLen
      (create embLen emptyStore inputHi idA 100 true).2
      inputHi idB 200 true).2
    inputHi idC 300 true).2

/-- Two rows whose ids share their first 8 characters (`idA`, `idB`). -/
def stAB : StoreState :=
  (create embLen (create embLen emptyStore inputHi idA 100 true).2
    inputHi idB 200 true).2

/-- `stA` after soft-deleting its only row at time 150. -/
def stADel : StoreState := delete stA idA (some ['o', 'l', 'd']) 150

/-- The sole (soft-deleted) row of `stADel`. -/
def stADelRow : Memory := stADel.rows.head (by decide)

/-- An update staging only `confidence := 0.3`. -/
def updConf : UpdateMemoryInput :=
  { content := none
    confidence := some (mkRat 3 10)
    importance := none
    decayDays := none
    tags := none }

/-- A create input with `decayDays := 1`. -/
def inputDecay : CreateMemoryInput :=
  { content := ['h', 'i']
    category := ['f', 'a', 'c', 't']
    confidence := none
    importance := none
    decayDays := some 1
    tags := none
    sourceChannel := none
    sourceMessageId := none }

/-- One row with `decayDays = 1` created at time 0 — expired from time
86 400 000 on. -/
def stDecay : StoreState := (create embLen emptyStore inputDecay idA 0 true).2

/-- The single (expired but live) row of `stDecay`. -/
def stDecayRow : Memory := stDecay.rows.head (by decide)

/-- A filter tag crafted to exploit the substring nature of the SQL tag
check: the characters a " , " b. -/
def tagTrick : Str := ['a', '"', ',', '"', 'b']

/-- A create input carrying tags a and b in category pref. -/
def inputTags : CreateMemoryInput :=
  { content := ['h', 'i']
    category := ['p', 'r', 'e', 'f']
    confidence := none
    importance := none
    decayDays := none
    tags := some [['a'], ['b']]
    sourceChannel := none
    sourceMessageId := none }

/-- One live row with tags a and b. -/
def stTags : StoreState := (create embLen emptyStore inputTags idA 100 true).2

/-- Search options with every field absent (all defaults). -/
def optsPlain : SearchOptions :=
  { query := none
    category := none
    minConfidence := none
    minImportance := none
    tags := none
    limit := none
    excludeDecayed := none }

/-- Search options with `excludeDecayed := false` and limit 1. -/
def optsKeepDecayed : SearchOptions :=
  { query := none
    category := none
    minConfidence := none
    minImportance := none
    tags := none
    limit := some 1
    excludeDecayed := some false }

/-- Search options filtering only by the crafted tag `tagTrick`. -/
def optsTagTrick : SearchOptions :=
  { query := none
    category := none
    minConfidence := none
    minImportance := none
    tags := some [tagTrick]
    limit := none
    excludeDecayed := none }

/-- Search options filtering by category pref and minConfidence 0.5. -/
def optsCat : SearchOptions :=
  { query := none
    category := some ['p', 'r', 'e', 'f']
    minConfidence := some (mkRat 1 2)
    minImportance := none
    tags := none
    limit := none
    excludeDecayed := none }

/-- The first result of the category/confidence search over `stTags`. -/
def searchCatRes : MemorySearchResult :=
  (search embLen stTags optsCat 200).head (by decide)

/-- A store with one live metadata row but an empty vector index. -/
def stNoVec : StoreState := { vecs := [], rows := stA.rows }

/-- Search options carrying (only) the free-text query hi. -/
def optsQuery : SearchOptions :=
  { query := some ['h', 'i']
    category := none
    minConfidence := none
    minImportance := none
    tags := none
    limit := none
    excludeDecayed := none }

/-! Foundation lemmas: the kernel-reducible arithmetic wrappers agree with the
standard `Rat` operations, and the stable sort is a permutation. -/

theorem rAdd_eq (a b : Rat) : rAdd a b = a + b := (Rat.add_def' a b).symm

theorem rSub_eq (a b : Rat) : rSub a b = a - b := (Rat.sub_def' a b).symm

theorem rMul_eq (a b : Rat) : rMul a b = a * b := by
  rw [Rat.mul_def, Rat.normalize_eq_mkRat]; rfl

theorem rDiv_eq (a b : Rat) : rDiv a b = a / b := by
  rw [Rat.div_def, Rat.inv_def]
  rcases eq_or_ne b.num 0 with h | h
  · simp [rDiv, h]
  · conv_rhs => rw [← Rat.divInt_self a]
    rw [Rat.divInt_mul_divInt _ _ (Int.natCast_ne_zero.mpr a.den_nz) h]
    rfl

theorem rSum_eq (l : List Rat) : rSum l = l.sum := by
  induction l with
  | nil => rfl
  | cons x xs ih =>
    rw [rSum, List.foldr_cons, rAdd_eq, List.sum_cons]
    rw [rSum] at ih
    rw [ih]

theorem sqDist_eq (v w : List Rat) :
    sqDist v w = (List.zipWith (fun a b => (a - b) * (a - b)) v w).sum := by
  rw [sqDist, rSum_eq]
  simp only [rMul_eq, rSub_eq]

theorem distScore_eq (d : Rat) : distScore d = 1 / (1 + d) := by
  rw [distScore, rDiv_eq, rAdd_eq]

theorem mkRat_four_five : mkRat 4 5 = (4/5 : Rat) := by
  rw [Rat.mkRat_eq_divInt, Rat.divInt_eq_div]; norm_num

theorem mkRat_one_two : mkRat 1 2 = (1/2 : Rat) := by
  rw [Rat.mkRat_eq_divInt, Rat.divInt_eq_div]; norm_num

theorem distScore_zero : distScore 0 = 1 := by
  rw [distScore_eq]
  norm_num

theorem sqDist_self (v : List Rat) : sqDist v v = 0 := by
  rw [sqDist_eq]
  induction v with
  | nil => rfl
  | cons a t ih => simp [ih]

theorem insertBy_perm (le : α → α → Bool) (a : α) (l : List α) :
    List.Perm (insertBy le a l) (a :: l) := by
  induction l with
  | nil => exact List.Perm.refl _
  | cons b t ih =>
    rw [insertBy]
    split
    · exact List.Perm.refl _
    · exact (ih.cons b).trans (List.Perm.swap a b t)

theorem stableSortBy_perm (le : α → α → Bool) (l : List α) :
    List.Perm (stableSortBy le l) l := by
  induction l with
  | nil => exact List.Perm.refl _
  | cons x xs ih =>
    exact (insertBy_perm le x (stableSortBy le xs)).trans (ih.cons x)

theorem mem_stableSortBy {le : α → α → Bool} {l : List α} {a : α} :
    a ∈ stableSortBy le l ↔ a ∈ l :=
  (stableSortBy_perm le l).mem_iff

theorem length_stableSortBy (le : α → α → Bool) (l : List α) :
    (stableSortBy le l).length = l.length :=
  (stableSortBy_perm le l).length_eq

theorem applyUpdates_id (u : UpdateMemoryInput) (now : Nat) (id : Str)
    (r : Memory) : (applyUpdates u now id r).id = r.id := by
  rw [applyUpdates]
  split
  · rfl
  · rfl

/-! Claim C1 — create's partial-failure handling. -/

/-- C1 (counterexample): the claim says a create whose metadata write fails
leaves no vector entry without a metadata counterpart. At the concrete input
below the create does fail (`StorageFailure` propagates) yet the vector
entry written before the failure remains orphaned — the source has no
rollback or sweep. -/
theorem create_metaFail_noRollback_cex :
    (create embLen emptyStore inputHi idA 100 false).1 =
      Except.error StoreError.storageFailure ∧
    noOrphanVectors (create embLen emptyStore inputHi idA 100 false).2 = false := by
  constructor
  · rfl
  · decide

/-- C1 (amended): if create's metadata write fails, the operation fails with
`StorageFailure` and no metadata record is visible (the row list is
unchanged), but the vector write is NOT rolled back: for a fresh id the new
vector entry remains with no metadata counterpart. -/
theorem create_metaFail_fails_without_rollback (embed : Str → List Rat)
    (st : StoreState) (input : CreateMemoryInput) (id : Str) (now : Nat)
    (hfresh : st.rows.all (fun r => !(r.id == id)) = true) :
    (create embed st input id now false).1 =
      Except.error StoreError.storageFailure ∧
    (create embed st input id now false).2.rows = st.rows ∧
    noOrphanVectors (create embed st input id now false).2 = false := by
  refine ⟨rfl, rfl, ?_⟩
  have h1 : ∀ r ∈ st.rows, (r.id == id) = false := by
    intro r hr
    have h := List.all_eq_true.mp hfresh r hr
    simpa using h
  have hany : st.rows.any (fun r => r.id == id) = false := by
    rw [List.any_eq_false]
    intro r hr
    simp [h1 r hr]
  apply List.all_eq_false.mpr
  refine ⟨{ id := id, vector := embed input.content, text := input.content },
    ?_, ?_⟩
  · show _ ∈ st.vecs ++ [_]
    exact List.mem_append_right _ (List.mem_singleton.mpr rfl)
  · show ¬ (st.rows.any (fun r => r.id == _) = true)
    simp only [VecEntry.mk.injEq]
    rw [hany]
    exact Bool.false_ne_true

/-- C1 (witness): the amended theorem applied at the concrete failed create
of `inputHi` into the empty store. -/
theorem create_metaFail_fails_without_rollback_witness :
    (create embLen emptyStore inputHi idA 100 false).1 =
      Except.error StoreError.storageFailure ∧
    noOrphanVectors (create embLen emptyStore inputHi idA 100 false).2 = false := by
  have h := create_metaFail_fails_without_rollback embLen emptyStore inputHi idA
    100 (by decide)
  exact ⟨h.1, h.2.2⟩

/-- Shared helper: for a full-length id, a delete stamps `deletedAt` /
`deleteReason` with its own time and reason on every row with that id — the
soft-delete UPDATE has no `deleted_at IS NULL` guard. -/
theorem delete_stamps (st : StoreState) (id : Str) (rs : Option Str) (t : Nat)
    (hlen : ¬ id.length = 8) :
    ∀ r ∈ (delete st id rs t).rows, r.id = id →
      r.deletedAt = some t ∧ r.deleteReason = rs := by
  intro r hr hid
  simp only [delete, if_neg hlen, List.mem_map] at hr
  obtain ⟨r0, _, rfl⟩ := hr
  by_cases h : (r0.id == id) = true
  · simp [h]
  · rw [if_neg] at hid ⊢
    · exact absurd (by simp [hid]) h
    · simp [h]
    · simp [h]

/-! Claim C2 — idempotent delete. -/

/-- C2 (counterexample): the claim says a second `delete(id)` leaves
`deletedAt`/`deleteReason` exactly as the first call set them. Concretely,
deleting the sole row of `stA` at time 200 sets `deletedAt = 200`, and a
second delete at time 300 re-stamps it to 300 — the UPDATE has no
already-deleted guard. -/
theorem delete_twice_cex :
    ((delete stA idA none 200).rows.map (fun r => r.deletedAt) = [some 200]) ∧
    ((delete (delete stA idA none 200) idA none 300).rows.map
      (fun r => r.deletedAt) = [some 300]) := by decide

/-- C2 (amended): `delete` is total (never errors), but not stamp-idempotent:
for a full-length id, the second call overwrites `deletedAt` and
`deleteReason` with the second call's time and reason. -/
theorem delete_twice_restamps (st : StoreState) (id : Str)
    (r1 r2 : Option Str) (t1 t2 : Nat) (hlen : ¬ id.length = 8) :
    ∀ r ∈ (delete (delete st id r1 t1) id r2 t2).rows, r.id = id →
      r.deletedAt = some t2 ∧ r.deleteReason = r2 :=
  delete_stamps (delete st id r1 t1) id r2 t2 hlen

/-- C2 (witness): the amended theorem applied to the concrete double delete
of `stA`'s row (times 200 then 300, second reason u). -/
theorem delete_twice_restamps_witness :
    stARow2.deletedAt = some 300 ∧ stARow2.deleteReason = some ['u'] :=
  delete_twice_restamps stA idA none (some ['u']) 200 300 (by decide)
    stARow2 (by decide) (by decide)

/-! Claim C3 — update's "not found" behaviour. -/

/-- C3 (counterexample): the claim says `update` returns a "not found" error
when the identifier resolves to no live row. Concretely, `stADel`'s only row
is soft-deleted (`deletedAt = 150`), yet updating it returns the updated
Memory (with the staged confidence applied), not an error. -/
theorem update_noLiveCheck_cex :
    (stADel.rows.map (fun r => r.deletedAt) = [some 150]) ∧
    ((update embLen stADel idA updConf 400).1.map (fun m => m.confidence) =
      some (mkRat 3 10)) := by decide

/-- C3 (amended): `update` checks neither existence nor liveness: it stages
the changes onto every row whose id equals the identifier exactly
(soft-deleted rows included, their `deletedAt` untouched) and returns
`get(id)` after the write — the updated Memory whenever a row with that id
exists, and null (`none`, not an error) when none does. -/
theorem update_returns_get_after_write (embed : Str → List Rat)
    (st : StoreState) (id : Str) (u : UpdateMemoryInput) (now : Nat)
    (hlen : ¬ id.length = 8) :
    (st.rows.all (fun r => !(r.id == id)) = true →
      (update embed st id u now).1 = none) ∧
    (∀ r0, (st.rows.filter (fun r => r.id == id)).head? = some r0 →
      ∃ m, (update embed st id u now).1 = some m ∧
        m.updatedAt = now ∧
        m.deletedAt = r0.deletedAt ∧
        m.content = u.content.getD r0.content ∧
        m.confidence = u.confidence.getD r0.confidence ∧
        m.importance = u.importance.getD r0.importance ∧
        m.tags = u.tags.getD r0.tags) := by
  have hkey : ((st.rows.map (applyUpdates u now id)).filter
        (fun r => r.id == id)).head? =
      (st.rows.filter (fun r => r.id == id)).head?.map (applyUpdates u now id) := by
    rw [List.filter_map, List.head?_map]
    congr 2
    apply List.filter_congr
    intro r _
    simp only [Function.comp_apply, applyUpdates_id]
  constructor
  · intro hall
    simp only [update, get, if_neg hlen]
    rw [hkey]
    have hnil : st.rows.filter (fun r => r.id == id) = [] := by
      rw [List.filter_eq_nil_iff]
      intro r hr
      have h := List.all_eq_true.mp hall r hr
      simpa using h
    rw [hnil]
    rfl
  · intro r0 h0
    have hp : (r0.id == id) = true := by
      have hmem : r0 ∈ st.rows.filter (fun r => r.id == id) :=
        List.mem_of_mem_head? (by rw [h0]; exact Option.mem_some_iff.mpr rfl)
      exact (List.mem_filter.mp hmem).2
    refine ⟨applyUpdates u now id r0, ?_, ?_, ?_, ?_, ?_, ?_, ?_⟩
    · simp only [update, get, if_neg hlen]
      rw [hkey, h0]
      rfl
    all_goals simp [applyUpdates, hp]

/-- C3 (witness): the amended theorem applied to updating the soft-deleted
row of `stADel` — the update returns the memory with the staged confidence,
`updatedAt` refreshed, and the soft-deletion stamp untouched. -/
theorem update_returns_get_after_write_witness :
    ((update embLen stADel idA updConf 400).1.map
      (fun m => (m.updatedAt, m.deletedAt, m.confidence))) =
      some (400, some 150, mkRat 3 10) := by
  have h := (update_returns_get_after_write embLen stADel idA updConf 400
    (by decide)).2 stADelRow (by decide)
  obtain ⟨m, hm, h1, h2, _, h4, _, _⟩ := h
  rw [hm]
  have hdel : stADelRow.deletedAt = some 150 := by decide
  simp [h1, h2, h4, hdel, updConf]

/-! Claim C4 — create/get round trip. -/

/-- C4: for a fresh id (length ≠ 8, not already stored), a successful create
returns `get(id)`, and `get(id)` on the resulting state yields a Memory
carrying exactly the inputs — content, category, decayDays, tags,
sourceChannel, sourceMessageId — with confidence defaulting to 0.8 and
importance to 0.5 when omitted, and
`createdAt = updatedAt = lastAccessedAt = now`. -/
theorem create_get_roundTrip (embed : Str → List Rat) (st : StoreState)
    (input : CreateMemoryInput) (id : Str) (now : Nat)
    (hlen : ¬ id.length = 8)
    (hfresh : st.rows.all (fun r => !(r.id == id)) = true) :
    ∃ m, (create embed st input id now true).1 = Except.ok (some m) ∧
      get (create embed st input id now true).2 id = some m ∧
      m.id = id ∧
      m.content = input.content ∧
      m.category = input.category ∧
      m.confidence = input.confidence.getD (4/5 : Rat) ∧
      m.importance = input.importance.getD (1/2 : Rat) ∧
      m.decayDays = input.decayDays ∧
      m.tags = input.tags.getD [] ∧
      m.sourceChannel = input.sourceChannel ∧
      m.sourceMessageId = input.sourceMessageId ∧
      m.createdAt = now ∧ m.updatedAt = now ∧ m.lastAccessedAt = some now := by
  have hnil : st.rows.filter (fun r => r.id == id) = [] := by
    rw [List.filter_eq_nil_iff]
    intro r hr
    have h := List.all_eq_true.mp hfresh r hr
    simpa using h
  have hget : get (create embed st input id now true).2 id =
      some (createRow input id now) := by
    simp only [create, if_true, get, if_neg hlen]
    rw [List.filter_append, hnil, List.nil_append]
    simp [rowToMemory, createRow]
  refine ⟨_, ?_, hget, rfl, rfl, rfl, ?_, ?_, rfl, rfl, rfl, rfl, rfl, rfl, rfl⟩
  · show Except.ok (get (create embed st input id now true).2 id) = _
    rw [hget]
  · show input.confidence.getD (mkRat 4 5) = _
    rw [mkRat_four_five]
  · show input.importance.getD (mkRat 1 2) = _
    rw [mkRat_one_two]

/-- C4 (witness): the round trip applied to the concrete create of `inputHi`
(no confidence/importance supplied) into the empty store at time 100. -/
theorem create_get_roundTrip_witness :
    (get stA idA).map (fun m =>
      (m.id, m.content, m.confidence, m.importance, m.createdAt)) =
      some (idA, ['h', 'i'], mkRat 4 5, mkRat 1 2, 100) := by
  obtain ⟨m, _, hget, hid, hcont, _, hconf, himp, _, _, _, _, hcre, _, _⟩ :=
    create_get_roundTrip embLen emptyStore inputHi idA 100 (by decide) (by decide)
  show (get (create embLen emptyStore inputHi idA 100 true).2 idA).map _ = _
  rw [hget]
  simp [hid, hcont, hconf, himp, hcre, inputHi, mkRat_four_five, mkRat_one_two]

/-! Claim C5 — pagination stability of list. -/

/-- C5: over any dataset with exactly 3 live rows and no category filter,
`list(limit 2, offset 0)` followed by `list(limit 2, offset 2)` returns the
3 live rows exactly once between the two pages (their concatenation is a
permutation of the live rows — nothing repeated or skipped), and both calls
report `total = 3`, for every requested sort key and direction (ties keep
the stable table order). -/
theorem list_pagination_stable (st : StoreState) (k : Option SortKey)
    (o : Option SortOrder)
    (h3 : (st.rows.filter (fun r => r.deletedAt == none)).length = 3) :
    List.Perm
      ((list st { category := none, sortBy := k, sortOrder := o,
                  limit := some 2, offset := some 0 }).items ++
       (list st { category := none, sortBy := k, sortOrder := o,
                  limit := some 2, offset := some 2 }).items)
      (st.rows.filter (fun r => r.deletedAt == none)) ∧
    (list st { category := none, sortBy := k, sortOrder := o,
               limit := some 2, offset := some 0 }).total = 3 ∧
    (list st { category := none, sortBy := k, sortOrder := o,
               limit := some 2, offset := some 2 }).total = 3 := by
  simp only [list, Bool.and_true, Option.getD_some]
  refine ⟨?_, h3, h3⟩
  rw [List.drop_zero]
  have hlen : ∀ cmp : Memory → Memory → Bool,
      (stableSortBy cmp (st.rows.filter (fun r => r.deletedAt == none))).length
        = 3 := by
    intro cmp
    rw [length_stableSortBy]
    exact h3
  have key : ∀ (l L : List Memory), List.Perm l L → l.length = 3 →
      List.Perm (l.take 2 ++ (l.drop 2).take 2) L := by
    intro l L hp hl
    have e : (l.drop 2).take 2 = l.drop 2 :=
      List.take_of_length_le (by rw [List.length_drop, hl]; omega)
    rw [e, List.take_append_drop]
    exact hp
  exact key _ _ (stableSortBy_perm _ _) (hlen _)

/-- C5 (witness): the pagination theorem applied to the concrete 3-row store
`st3`, with the default sort (created_at descending). -/
theorem list_pagination_stable_witness :
    List.Perm
      ((list st3 { category := none, sortBy := none, sortOrder := none,
                   limit := some 2, offset := some 0 }).items ++
       (list st3 { category := none, sortBy := none, sortOrder := none,
                   limit := some 2, offset := some 2 }).items)
      (st3.rows.filter (fun r => r.deletedAt == none)) ∧
    (list st3 { category := none, sortBy := none, sortOrder := none,
                limit := some 2, offset := some 0 }).total = 3 ∧
    (list st3 { category := none, sortBy := none, sortOrder := none,
                limit := some 2, offset := some 2 }).total = 3 :=
  list_pagination_stable st3 none none (by decide)

/-! Claim C6 — short-id resolution. -/

/-- C6 (counterexample): with the two stored ids `idA`, `idB` sharing their
first 8 characters, the shared prefix resolves to the first matching row
(`idA`'s), so for the stored id `idB` the 8-character prefix does NOT
resolve to the same row as the full id. -/
theorem shortId_ambiguous_cex :
    ((get stAB pre8).map (fun m => m.id) = some idA) ∧
    ((get stAB idB).map (fun m => m.id) = some idB) ∧
    ¬ (get stAB pre8 = get stAB idB) := by decide

/-- C6 (amended): an 8-character input resolves deterministically to the
first stored row whose id LIKE-matches `input%` — `get` searching all rows,
`delete` only live rows. When the prefix matches exactly the rows carrying
the full id, `get(prefix) = get(full id)`; when moreover some live row has
that id and the prefix matches no other live row, `delete(prefix)` acts
exactly as `delete(full id)`. An ambiguous prefix is not an error: it simply
resolves to the first match. -/
theorem shortId_resolution (st : StoreState) (id : Str)
    (h8 : (id.take 8).length = 8) (hlen : ¬ id.length = 8) :
    ((∀ r ∈ st.rows, likeMatch (id.take 8 ++ ['%']) r.id = (r.id == id)) →
      get st (id.take 8) = get st id) ∧
    (∀ reason now,
      (∀ r ∈ st.rows, (r.deletedAt == none) = true →
        likeMatch (id.take 8 ++ ['%']) r.id = (r.id == id)) →
      (∃ r ∈ st.rows, r.id = id ∧ r.deletedAt = none) →
      delete st (id.take 8) reason now = delete st id reason now) := by
  constructor
  · intro hu
    rw [get, if_pos h8, get, if_neg hlen]
    congr 2
    apply List.filter_congr
    intro r hr
    exact hu r hr
  · intro reason now hu hex
    obtain ⟨rstar, hmem, hid, hlive⟩ := hex
    have hfeq : st.rows.filter
        (fun r => likeMatch (id.take 8 ++ ['%']) r.id && r.deletedAt == none) =
        st.rows.filter (fun r => r.id == id && r.deletedAt == none) := by
      apply List.filter_congr
      intro r hr
      by_cases hl : (r.deletedAt == none) = true
      · rw [hu r hr hl]
      · have hl' : (r.deletedAt == none) = false := by simpa using hl
        rw [hl', Bool.and_false, Bool.and_false]
    simp only [delete, if_pos h8, if_neg hlen, hfeq]
    cases hh : (st.rows.filter
        (fun r => r.id == id && r.deletedAt == none)).head? with
    | none =>
      exfalso
      rw [List.head?_eq_none_iff] at hh
      have hin : rstar ∈ st.rows.filter
          (fun r => r.id == id && r.deletedAt == none) := by
        rw [List.mem_filter]
        exact ⟨hmem, by simp [hid, hlive]⟩
      rw [hh] at hin
      exact List.not_mem_nil _ hin
    | some r0 =>
      have hr0 : r0 ∈ st.rows.filter
          (fun r => r.id == id && r.deletedAt == none) :=
        List.mem_of_mem_head? (by rw [hh]; exact Option.mem_some_iff.mpr rfl)
      have hr0id : r0.id = id := by
        have h := (List.mem_filter.mp hr0).2
        simp only [Bool.and_eq_true, beq_iff_eq] at h
        exact h.1
      simp only [hr0id]

/-- C6 (witness): the amended theorem applied to the one-row store `stA`,
where the 8-character prefix of `idA` is unambiguous: `get` and `delete` on
the prefix behave exactly as on the full id. -/
theorem shortId_resolution_witness :
    get stA (idA.take 8) = get stA idA ∧
    delete stA (idA.take 8) (some ['r']) 500 = delete stA idA (some ['r']) 500 := by
  have h := shortId_resolution stA idA (by decide) (by decide)
  exact ⟨h.1 (by decide), h.2 (some ['r']) 500 (by decide) (by decide)⟩

/-- Shared helper: every result of `search` is a stored row passing the SQL
filter (for the candidate id set the vector phase produced). -/
theorem mem_search_filter (embed : Str → List Rat) (st : StoreState)
    (opts : SearchOptions) (now : Nat) :
    ∀ res ∈ search embed st opts now, ∃ ids,
      res.memory ∈ st.rows ∧ searchFilter opts ids now res.memory = true := by
  intro res hres
  simp only [search] at hres
  have key : ∀ (cands : List (Str × Rat)),
      res ∈ ((st.rows.filter
          (searchFilter opts (cands.map Prod.fst) now)).take
            (opts.limit.getD 10)).map
        (fun r => MemorySearchResult.mk (rowToMemory r)
          ((cands.lookup r.id).getD 1)) →
      ∃ ids, res.memory ∈ st.rows ∧ searchFilter opts ids now res.memory = true := by
    intro cands hmem
    obtain ⟨r, hr, rfl⟩ := List.mem_map.mp hmem
    have hr' := List.mem_filter.mp (List.mem_of_mem_take hr)
    exact ⟨cands.map Prod.fst, hr'.1, hr'.2⟩
  split at hres
  · exact key _ hres
  · rw [mem_stableSortBy] at hres
    exact key _ hres

/-! Claim C7 — decay boundary. -/

/-- C7: a memory with `decayDays` set that has expired
(`createdAt + decayDays × 86 400 000 ≤ now`) never appears among the results
of a search with decay exclusion on (any `excludeDecayed` other than
`false`); with `excludeDecayed := false`, no other filters, no query and a
limit at least the live row count, a live expired row IS returned; and `get`
still returns it (no decay filtering on direct lookup). -/
theorem decay_boundary (embed : Str → List Rat) (st : StoreState) (m : Memory)
    (d : Int) (now : Nat)
    (hd : m.decayDays = some d)
    (hexp : (m.createdAt : Int) + d * 86400000 ≤ (now : Int)) :
    (∀ opts : SearchOptions, opts.excludeDecayed ≠ some false →
      ∀ res ∈ search embed st opts now, res.memory ≠ m) ∧
    (m ∈ st.rows → m.deletedAt = none →
      ∀ L : Nat, (st.rows.filter (fun r => r.deletedAt == none)).length ≤ L →
      m ∈ (search embed st
        { query := none, category := none, minConfidence := none,
          minImportance := none, tags := none, limit := some L,
          excludeDecayed := some false } now).map (fun res => res.memory)) ∧
    (∀ r0, (st.rows.filter (fun r => r.id == m.id)).head? = some r0 →
      ¬ m.id.length = 8 → get st m.id = some r0) := by
  refine ⟨?_, ?_, ?_⟩
  · intro opts hne res hres hmeq
    obtain ⟨ids, _, hfil⟩ := mem_search_filter embed st opts now res hres
    rw [hmeq] at hfil
    have h1 : (opts.excludeDecayed != some false) = true := by
      simp [bne_iff_ne, hne]
    have h2 : decayFilter m now = false := by
      rw [decayFilter, hd]
      simp only [decide_eq_false_iff_not]
      exact not_lt.mpr hexp
    rw [searchFilter, h1] at hfil
    simp [h2] at hfil
  · intro hmem hlive L hL
    simp only [search, List.map_nil, List.lookup_nil, List.isEmpty_nil,
      Option.getD_some, Option.getD_none]
    rw [if_pos trivial]
    have hfeq : st.rows.filter
        (searchFilter
          { query := none, category := none, minConfidence := none,
            minImportance := none, tags := none, limit := some L,
            excludeDecayed := some false } [] now) =
        st.rows.filter (fun r => r.deletedAt == none) := by
      apply List.filter_congr
      intro r _
      simp [searchFilter]
    rw [hfeq, List.take_of_length_le hL, List.mem_map]
    refine ⟨_, List.mem_map.mpr ⟨m, ?_, rfl⟩, rfl⟩
    rw [List.mem_filter]
    exact ⟨hmem, by simp [hlive]⟩
  · intro r0 h0 hlen8
    rw [get, if_neg hlen8, h0]
    rfl

/-- C7 (witness): the decay-boundary theorem applied to `stDecay`'s row
(decayDays 1, created at 0) at time 86 400 001: excluded with decay
filtering on, included with `excludeDecayed := false`, still visible via
`get`. -/
theorem decay_boundary_witness :
    stDecayRow ∉ (search embLen stDecay optsPlain 86400001).map
      (fun res => res.memory) ∧
    stDecayRow ∈ (search embLen stDecay optsKeepDecayed 86400001).map
      (fun res => res.memory) ∧
    get stDecay idA = some stDecayRow := by
  have h := decay_boundary embLen stDecay stDecayRow 1 86400001
    (by decide) (by decide)
  refine ⟨?_, ?_, ?_⟩
  · intro hmem
    obtain ⟨res, hres, heq⟩ := List.mem_map.mp hmem
    exact h.1 optsPlain (by decide) res hres heq
  · exact h.2.1 (by decide) (by decide) 1 (by decide)
  · exact h.2.2 stDecayRow (by decide) (by decide)

/-! Claim C8 — search filter composition. -/

/-- C8 (counterexample): the claim says every search result has "every given
tag present". The filter tag a","b (a quoted-comma trick) is matched by the
SQL substring check `tags LIKE '%"a","b"%'` against the serialized tag list
of a row whose tags are exactly a and b — the row is returned although the
given tag is not an element of its tag list. -/
theorem search_tag_substring_cex :
    ((search embLen stTags optsTagTrick 200).map (fun r => r.memory.tags)) =
      [[['a'], ['b']]] ∧
    ([['a'], ['b']] : List Str).contains tagTrick = false := by decide

/-- C8 (amended): every search result is not soft-deleted and satisfies the
supplied structured filters as implemented — category equality,
confidence ≥ minConfidence, importance ≥ minImportance, and for each given
tag the SQL check `tags LIKE '%"tag"%'` against the serialized tag list
(which coincides with tag membership for tags free of quote and wildcard
characters); the result sequence is never longer than the limit
(default 10); and an empty table yields the empty sequence, not an error. -/
theorem search_filters (embed : Str → List Rat) (st : StoreState)
    (opts : SearchOptions) (now : Nat) :
    (∀ res ∈ search embed st opts now,
      res.memory.deletedAt = none ∧
      (∀ c, opts.category = some c → res.memory.category = c) ∧
      (∀ q, opts.minConfidence = some q → q ≤ res.memory.confidence) ∧
      (∀ q, opts.minImportance = some q → q ≤ res.memory.importance) ∧
      (∀ ts, opts.tags = some ts → ∀ t ∈ ts,
        tagLikeFilter t res.memory.tags = true)) ∧
    (search embed st opts now).length ≤ opts.limit.getD 10 ∧
    (st.rows = [] → search embed st opts now = []) := by
  refine ⟨?_, ?_, ?_⟩
  · intro res hres
    obtain ⟨ids, _, hfil⟩ := mem_search_filter embed st opts now res hres
    rw [searchFilter] at hfil
    simp only [Bool.and_eq_true] at hfil
    obtain ⟨⟨⟨⟨⟨⟨hdel, _⟩, hcat⟩, hconf⟩, himp⟩, htags⟩, _⟩ := hfil
    refine ⟨by simpa using hdel, ?_, ?_, ?_, ?_⟩
    · intro c hc
      rw [hc] at hcat
      simpa using hcat
    · intro q hq
      rw [hq] at hconf
      exact of_decide_eq_true hconf
    · intro q hq
      rw [hq] at himp
      exact of_decide_eq_true himp
    · intro ts hts t ht
      rw [hts] at htags
      exact List.all_eq_true.mp htags t ht
  · have hlen : ∀ cands : List (Str × Rat),
        (((st.rows.filter
            (searchFilter opts (cands.map Prod.fst) now)).take
              (opts.limit.getD 10)).map
          (fun r => MemorySearchResult.mk (rowToMemory r)
            ((cands.lookup r.id).getD 1))).length ≤ opts.limit.getD 10 := by
      intro cands
      rw [List.length_map]
      exact List.length_take_le _ _
    simp only [search]
    split
    · exact hlen _
    · rw [length_stableSortBy]
      exact hlen _
  · intro h0
    simp [search, h0, stableSortBy]

/-- C8 (witness): the amended theorem applied to the concrete
category + minConfidence search over `stTags`, whose first (only) result has
category pref and confidence 0.8 ≥ 0.5, the list being within the default
limit. -/
theorem search_filters_witness :
    searchCatRes.memory.category = ['p', 'r', 'e', 'f'] ∧
    mkRat 1 2 ≤ searchCatRes.memory.confidence ∧
    (search embLen stTags optsCat 200).length ≤ 10 := by
  have h := search_filters embLen stTags optsCat 200
  have h1 := h.1 searchCatRes (by decide)
  exact ⟨h1.2.1 _ rfl, h1.2.2.1 _ rfl, h.2.1⟩

/-! Claim C9 — the duplicate gate. -/

/-- C9: `findDuplicates` inspects only the single nearest neighbour: it
returns at most one match, every returned match has score ≥ threshold and no
(nonzero) soft-deletion stamp; and — the duplicate-gate scenario — after
storing identical content twice into an empty store, `findDuplicates` on
that content with any threshold ≤ 1 (0.95 = `mkRat 19 20` included) returns
exactly one match, whose score (here 1, the transform of distance 0) is at
least the threshold. -/
theorem findDuplicates_gate (embed : Str → List Rat) :
    (∀ (st : StoreState) (content : Str) (threshold : Rat),
      (findDuplicates embed st content threshold).length ≤ 1 ∧
      ∀ res ∈ findDuplicates embed st content threshold,
        threshold ≤ res.score ∧ res.memory.deletedAt.getD 0 = 0) ∧
    (∀ (input : CreateMemoryInput) (id1 id2 : Str) (t1 t2 : Nat)
      (threshold : Rat), ¬ id1.length = 8 → id1 ≠ id2 → threshold ≤ 1 →
      ∃ res, findDuplicates embed
          (create embed (create embed emptyStore input id1 t1 true).2
            input id2 t2 true).2
          input.content threshold = [res] ∧
        threshold ≤ res.score) := by
  constructor
  · intro st content threshold
    cases h : vectorSearch st.vecs (embed content) 1 with
    | nil =>
      simp only [findDuplicates, h]
      exact ⟨by simp, by simp⟩
    | cons p tl =>
      simp only [findDuplicates, h]
      by_cases hlt : distScore p.2 < threshold
      · rw [if_pos hlt]
        exact ⟨by simp, by simp⟩
      · rw [if_neg hlt]
        cases hg : get st p.1.id with
        | none =>
          simp only [hg]
          exact ⟨by simp, by simp⟩
        | some m =>
          simp only [hg]
          by_cases hdel : (m.deletedAt.getD 0) ≠ 0
          · rw [if_pos hdel]
            exact ⟨by simp, by simp⟩
          · rw [if_neg hdel]
            refine ⟨by simp, ?_⟩
            intro res hr
            rw [List.mem_singleton] at hr
            subst hr
            exact ⟨not_lt.mp hlt, by simpa using hdel⟩
  · intro input id1 id2 t1 t2 threshold hlen1 hne hθ
    have hvs : vectorSearch
        (create embed (create embed emptyStore input id1 t1 true).2
          input id2 t2 true).2.vecs (embed input.content) 1 =
        [({ id := id1, vector := embed input.content, text := input.content }, 0)] := by
      simp [create, emptyStore, vectorSearch, sqDist_self, stableSortBy, insertBy]
    have h21 : (id2 == id1) = false := beq_eq_false_iff_ne.mpr (Ne.symm hne)
    have hget : get (create embed (create embed emptyStore input id1 t1 true).2
        input id2 t2 true).2 id1 = some (createRow input id1 t1) := by
      rw [get, if_neg hlen1]
      have hrows : (create embed (create embed emptyStore input id1 t1 true).2
          input id2 t2 true).2.rows =
          [createRow input id1 t1, createRow input id2 t2] := by
        simp [create, emptyStore]
      rw [hrows]
      simp [createRow, h21, rowToMemory]
    refine ⟨MemorySearchResult.mk (createRow input id1 t1) (distScore 0), ?_, ?_⟩
    · simp only [findDuplicates, hvs]
      rw [if_neg (by rw [distScore_zero]; exact not_lt.mpr hθ)]
      simp only [hget]
      rw [if_neg (by simp [createRow])]
    · rw [distScore_zero]
      exact hθ

/-- C9 (witness): the gate applied to the concrete store `stAB`, which holds
the content hi twice (ids `idA`, `idB`): `findDuplicates` at threshold 0.95
(`mkRat 19 20`) returns exactly one match with full score. -/
theorem findDuplicates_gate_witness :
    findDuplicates embLen stAB ['h', 'i'] (mkRat 19 20) =
      [MemorySearchResult.mk (createRow inputHi idA 100) (distScore 0)] ∧
    mkRat 19 20 ≤ distScore 0 ∧
    (findDuplicates embLen stAB ['h', 'i'] (mkRat 19 20)).length ≤ 1 := by
  obtain ⟨res, hres, hscore⟩ := (findDuplicates_gate embLen).2 inputHi idA idB
    100 200 (mkRat 19 20) (by decide) (by decide) (by decide)
  have heq : findDuplicates embLen stAB ['h', 'i'] (mkRat 19 20) =
      [MemorySearchResult.mk (createRow inputHi idA 100) (distScore 0)] := by
    decide
  refine ⟨heq, ?_,
    ((findDuplicates_gate embLen).1 stAB ['h', 'i'] (mkRat 19 20)).1⟩
  have hres2 : res = MemorySearchResult.mk (createRow inputHi idA 100)
      (distScore 0) := by
    have h2 : ([res] : List MemorySearchResult) =
        [MemorySearchResult.mk (createRow inputHi idA 100) (distScore 0)] := by
      rw [← hres]
      exact heq
    exact (List.cons_eq_cons.mp h2).1
  rw [hres2] at hscore
  simpa using hscore

/-! Claim C10 — non-empty query over an empty vector index. -/

/-- C10: when search is called with a query but the vector index yields zero
candidates (here: the index is empty), the candidate-id restriction is
skipped entirely (`vectorIds.length > 0` guards it): the search returns
exactly what the identical query-less search returns — up to limit live rows
matching the structured filters, each with default score 1.0 — rather than
an empty result. -/
theorem search_emptyIndex_fallback (embed : Str → List Rat) (st : StoreState)
    (opts : SearchOptions) (now : Nat) (q : Str)
    (hq : opts.query = some q) (hvec : st.vecs = []) :
    search embed st opts now =
      search embed st { opts with query := none } now ∧
    ∀ res ∈ search embed st opts now, res.score = 1 := by
  have hsf : searchFilter { opts with query := none } = searchFilter opts := by
    funext ids now' r
    rfl
  have hmain : search embed st opts now =
      ((st.rows.filter (searchFilter opts [] now)).take
        (opts.limit.getD 10)).map
        (fun r => MemorySearchResult.mk (rowToMemory r) 1) := by
    simp only [search, hq, hvec]
    by_cases hqe : q.isEmpty <;>
      simp [hqe, vectorSearch, stableSortBy]
  have hnone : search embed st { opts with query := none } now =
      ((st.rows.filter (searchFilter opts [] now)).take
        (opts.limit.getD 10)).map
        (fun r => MemorySearchResult.mk (rowToMemory r) 1) := by
    simp only [search, hvec]
    simp [hsf, vectorSearch, stableSortBy]
  constructor
  · rw [hmain, hnone]
  · intro res hres
    rw [hmain] at hres
    obtain ⟨r, _, rfl⟩ := List.mem_map.mp hres
    rfl

/-- C10 (witness): the fallback theorem applied to `stNoVec` (one live row,
empty vector index) with query hi: the query search equals the query-less
search and yields the row with score 1. -/
theorem search_emptyIndex_fallback_witness :
    search embLen stNoVec optsQuery 300 =
      search embLen stNoVec { optsQuery with query := none } 300 ∧
    (search embLen stNoVec optsQuery 300).map (fun r => r.score) = [1] := by
  have h := search_emptyIndex_fallback embLen stNoVec optsQuery 300
    ['h', 'i'] rfl rfl
  exact ⟨h.1, by decide⟩

end MemoryTools
